import Mathlib

/-!
Verification of the diagnostic-overlay and lint-runner core of the
`typescript-eslint-plugin` repository, as a shallow embedding in Lean.

The embedding follows the TypeScript sources:
  * `src/runner/failures.ts` — replacement flattening, sorting, and the
    non-overlapping replacement resolver;
  * `src/plugin.ts` — position mapping (`getTextSpan`), the problem
    registry (`ProblemMap` / `recordCodeAction`), diagnostic synthesis
    (`getSemanticDiagnostics`, `makeDiagnostic`), code-fix synthesis
    (`getCodeFixesAtPosition` and its helpers), and `decorate`;
  * `src/runner/index.ts` — exclusion testing (`fileIsExcluded`,
    `testForExclusionPattern`) and the scoped execution `doRun`.

Machine numbers are modelled as `Nat` (byte offsets, line and column
numbers are non-negative in every reachable state of the program; the
one signed quantity, a span's `length`, is an `Int`).  JavaScript
`undefined` and `null` arguments are modelled with `Option`.  Accesses
that would throw a `TypeError` in JavaScript (indexing `undefined`) are
given harmless default values and are kept outside every theorem's
domain by explicit hypotheses.  External collaborators (the `minimatch`
glob library, `path.relative`, `path.normalize`, the file system and the
analyzer library itself) enter as explicit function parameters.
-/

namespace EslintPlugin

/-- `eslint.Rule.Fix`: a single text replacement `{range: [start, end), text}`. -/
structure Fix where
  range : Nat × Nat
  text : String
  deriving DecidableEq, Repr

/-- The runtime value of `LintMessage.fix`: `Rule.Fix | Rule.Fix[] | undefined`
(the code probes it with truthiness and `Array.isArray`). -/
inductive FixValue where
  | undef : FixValue
  | one : Fix → FixValue
  | arr : List Fix → FixValue
  deriving DecidableEq, Repr

/-- `eslint.Linter.LintMessage`, restricted to the fields the plugin reads.
Line/column fields are `Option Nat`: the position resolver in `plugin.ts`
explicitly guards against absent values. -/
structure LintMessage where
  ruleId : Option String
  message : String
  severity : Nat
  line : Option Nat
  column : Option Nat
  endLine : Option Nat
  endColumn : Option Nat
  fix : FixValue
  deriving DecidableEq, Repr

/-- Default used where JavaScript would read a property of `undefined`
(such accesses throw in JS and are excluded by every theorem's hypotheses). -/
def junkFix : Fix := ⟨(0, 0), ""⟩

/-- `getReplacements` from `src/runner/failures.ts`. -/
def getReplacements : FixValue → List Fix
  | .undef => []
  | .arr fs => fs
  | .one f => [f]

/-- `getReplacement` from `src/runner/failures.ts` (out-of-range index
would be `undefined` in JS; it is only ever called at index 0). -/
def getReplacement (failure : LintMessage) (at_ : Nat) : Fix :=
  (getReplacements failure.fix).getD at_ junkFix

/-- The sort key of `sortFailures`: the start offset of a failure's first
replacement. -/
def sortKey (f : LintMessage) : Nat := (getReplacement f 0).range.1

/-- One step of a stable insertion sort on the `sortFailures` key; models
the (stable, ES2019) `Array.prototype.sort` with comparator
`(a, b) => getReplacement(a, 0).range[0] - getReplacement(b, 0).range[0]`. -/
def insertByKey (f : LintMessage) : List LintMessage → List LintMessage
  | [] => [f]
  | g :: rest =>
    if sortKey g ≤ sortKey f then g :: insertByKey f rest else f :: g :: rest

/-- `sortFailures` from `src/runner/failures.ts`: stable sort, ascending on
the start offset of each failure's first replacement. -/
def sortFailures : List LintMessage → List LintMessage
  | [] => []
  | f :: rest => insertByKey f (sortFailures rest)

/-- The nested `overlaps` predicate of `getNonOverlappingReplacements`:
`a.range[1] >= b.range[0]`. -/
def overlaps (a b : Fix) : Bool := b.range.1 ≤ a.range.2

/-- The loop of `getNonOverlappingReplacements`.  `isFirst` is `i === 0`;
`acc` is the `nonOverlapping` array.  `nonOverlapping[length - 1]` and
`replacements[0]` are modelled with defaults (in JS they throw when the
arrays are empty, which cannot happen for inputs whose failures all carry
at least one replacement). -/
def nonOverlapLoop (isFirst : Bool) (acc : List Fix) : List LintMessage → List Fix
  | [] => acc
  | f :: rest =>
    let replacements := getReplacements f.fix
    if isFirst || !overlaps (acc.getLastD junkFix) (replacements.headD junkFix) then
      nonOverlapLoop false (acc ++ replacements) rest
    else
      nonOverlapLoop false acc rest

/-- `getNonOverlappingReplacements` from `src/runner/failures.ts`. -/
def getNonOverlappingReplacements (failures : List LintMessage) : List Fix :=
  nonOverlapLoop true [] (sortFailures failures)

/-- The same loop, recording the accepted failures themselves instead of
their flattened replacements. -/
def acceptedLoop (isFirst : Bool) (acc : List Fix) :
    List LintMessage → List LintMessage
  | [] => []
  | f :: rest =>
    let replacements := getReplacements f.fix
    if isFirst || !overlaps (acc.getLastD junkFix) (replacements.headD junkFix) then
      f :: acceptedLoop false (acc ++ replacements) rest
    else
      acceptedLoop false acc rest

/-- The failures whose replacements `getNonOverlappingReplacements` keeps. -/
def acceptedFindings (failures : List LintMessage) : List LintMessage :=
  acceptedLoop true [] (sortFailures failures)

/-- Specification-side walk (following the spec's words): keep the first
finding; keep a later finding exactly when the end of the last retained
replacement is strictly less than the start of its first replacement. -/
def specAcceptedWalk (lastRetained : Option Fix) : List LintMessage → List LintMessage
  | [] => []
  | f :: rest =>
    match lastRetained with
    | none => f :: specAcceptedWalk ((getReplacements f.fix).getLast?) rest
    | some last =>
      if last.range.2 < ((getReplacements f.fix).headD junkFix).range.1 then
        f :: specAcceptedWalk ((getReplacements f.fix).getLast?) rest
      else
        specAcceptedWalk (some last) rest

/-- A finding is well formed when it carries at least one replacement and
its replacements are internally consistent: each replacement is a genuine
range (`start ≤ end`) and consecutive replacements are disjoint and in
position order (the data model: a fix is one or more disjoint replacements,
kept sorted by position). -/
def WfFinding (f : LintMessage) : Prop :=
  getReplacements f.fix ≠ [] ∧
  (∀ r ∈ getReplacements f.fix, r.range.1 ≤ r.range.2) ∧
  List.Chain' (fun a b => a.range.2 ≤ b.range.1) (getReplacements f.fix)

/-- A decision procedure for the disjoint-chain condition that reduces
under kernel evaluation. -/
def fixChainDec : (l : List Fix) →
    Decidable (List.Chain' (fun a b => a.range.2 ≤ b.range.1) l)
  | [] => .isTrue List.chain'_nil
  | [_] => .isTrue (List.chain'_singleton _)
  | a :: b :: rest =>
    match fixChainDec (b :: rest) with
    | .isTrue h =>
      if hle : a.range.2 ≤ b.range.1 then
        .isTrue (List.chain'_cons.mpr ⟨hle, h⟩)
      else .isFalse (fun hc => hle (List.chain'_cons.mp hc).1)
    | .isFalse h => .isFalse (fun hc => h (List.chain'_cons.mp hc).2)

instance (f : LintMessage) : Decidable (WfFinding f) :=
  have hd : Decidable
      (List.Chain' (fun (a b : Fix) => a.range.2 ≤ b.range.1)
        (getReplacements f.fix)) :=
    fixChainDec (getReplacements f.fix)
  inferInstanceAs (Decidable (getReplacements f.fix ≠ [] ∧
    (∀ r ∈ getReplacements f.fix, r.range.1 ≤ r.range.2) ∧
    List.Chain' (fun (a b : Fix) => a.range.2 ≤ b.range.1) (getReplacements f.fix)))

/-- Flattened replacements of a list of findings, in order. -/
def flatRepls : List LintMessage → List Fix
  | [] => []
  | f :: rest => getReplacements f.fix ++ flatRepls rest

/-- Ordering on findings by the `sortFailures` key. -/
def keyLe (a b : LintMessage) : Prop := sortKey a ≤ sortKey b

/-- Separation of two findings: every replacement of the first ends strictly
before every replacement of the second starts. -/
def SepFindings (F G : LintMessage) : Prop :=
  ∀ a ∈ getReplacements F.fix, ∀ b ∈ getReplacements G.fix,
    a.range.2 < b.range.1

lemma insertByKey_perm (f : LintMessage) (l : List LintMessage) :
    (insertByKey f l).Perm (f :: l) := by
  induction l with
  | nil => simp [insertByKey]
  | cons g rest ih =>
    simp only [insertByKey]
    split
    · exact (ih.cons g).trans (List.Perm.swap f g rest)
    · exact List.Perm.refl _

lemma sortFailures_perm (l : List LintMessage) : (sortFailures l).Perm l := by
  induction l with
  | nil => simp [sortFailures]
  | cons f rest ih =>
    exact (insertByKey_perm f (sortFailures rest)).trans (ih.cons f)

lemma insertByKey_pairwise {l : List LintMessage} (f : LintMessage)
    (h : l.Pairwise keyLe) : (insertByKey f l).Pairwise keyLe := by
  induction l with
  | nil => simp [insertByKey]
  | cons g rest ih =>
    simp only [insertByKey]
    split
    · rename_i hle
      refine List.Pairwise.cons ?_ (ih (List.Pairwise.of_cons h))
      intro x hx
      rcases List.mem_cons.mp ((insertByKey_perm f rest).mem_iff.mp hx) with rfl | hx'
      · exact hle
      · exact (List.pairwise_cons.mp h).1 x hx'
    · rename_i hnle
      have hfg : keyLe f g := Nat.le_of_lt (Nat.lt_of_not_le hnle)
      refine List.Pairwise.cons ?_ h
      intro x hx
      rcases List.mem_cons.mp hx with rfl | hx'
      · exact hfg
      · exact le_trans hfg ((List.pairwise_cons.mp h).1 x hx')

lemma sortFailures_pairwise (l : List LintMessage) :
    (sortFailures l).Pairwise keyLe := by
  induction l with
  | nil => simp [sortFailures]
  | cons f rest ih => exact insertByKey_pairwise f ih

/-- In a well-formed replacement chain, the head starts no later than any
member starts. -/
lemma chain_head_le_start (r : Fix) (rs : List Fix)
    (hse : ∀ x ∈ r :: rs, x.range.1 ≤ x.range.2)
    (hch : List.Chain' (fun a b => a.range.2 ≤ b.range.1) (r :: rs)) :
    ∀ b ∈ r :: rs, r.range.1 ≤ b.range.1 := by
  induction rs generalizing r with
  | nil =>
    intro b hb
    rcases List.mem_cons.mp hb with rfl | h
    · exact le_refl _
    · cases h
  | cons s rest ih =>
    intro b hb
    have hrs : r.range.2 ≤ s.range.1 := (List.chain'_cons.mp hch).1
    have hr : r.range.1 ≤ s.range.1 := le_trans (hse r (by simp)) hrs
    rcases List.mem_cons.mp hb with rfl | hb'
    · exact le_refl _
    · have := ih s (fun x hx => hse x (List.mem_cons_of_mem _ hx))
        (List.chain'_cons.mp hch).2 b hb'
      exact le_trans hr this

/-- In a well-formed replacement chain, every member ends no later than the
last member ends. -/
lemma chain_le_last_end (r : Fix) (rs : List Fix)
    (hse : ∀ x ∈ r :: rs, x.range.1 ≤ x.range.2)
    (hch : List.Chain' (fun a b => a.range.2 ≤ b.range.1) (r :: rs)) :
    ∀ a ∈ r :: rs, a.range.2 ≤ ((r :: rs).getLastD junkFix).range.2 := by
  induction rs generalizing r with
  | nil =>
    intro a ha
    rcases List.mem_cons.mp ha with rfl | h
    · simp
    · cases h
  | cons s rest ih =>
    intro a ha
    have hrs : r.range.2 ≤ s.range.1 := (List.chain'_cons.mp hch).1
    have hlast : ((r :: s :: rest).getLastD junkFix)
        = ((s :: rest).getLastD junkFix) := by
      rw [List.getLastD_cons, List.getLastD_cons, List.getLastD_cons]
    rw [hlast]
    rcases List.mem_cons.mp ha with rfl | ha'
    · have hs2 : a.range.2 ≤ s.range.2 := le_trans hrs (hse s (by simp))
      have := ih s (fun x hx => hse x (List.mem_cons_of_mem _ hx))
        (List.chain'_cons.mp hch).2 s (by simp)
      exact le_trans hs2 this
    · exact ih s (fun x hx => hse x (List.mem_cons_of_mem _ hx))
        (List.chain'_cons.mp hch).2 a ha'

/-- The last element of an append with nonempty right part. -/
lemma getLastD_append_right (acc rs : List Fix) (h : rs ≠ []) :
    ∀ d, (acc ++ rs).getLastD d = rs.getLastD d := by
  induction acc with
  | nil => intro d; rfl
  | cons a acc ih =>
    intro d
    cases rs with
    | nil => exact absurd rfl h
    | cons x xs =>
      rw [List.cons_append, List.getLastD_cons, ih a, List.getLastD_cons,
        List.getLastD_cons]

lemma getLast?_eq_getLastD (l : List Fix) (h : l ≠ []) (d : Fix) :
    l.getLast? = some (l.getLastD d) := by
  cases l with
  | nil => exact absurd rfl h
  | cons x xs => simp [List.getLastD_eq_getLast?, List.getLast?_cons]

lemma nonempty_chain_le_last (acc : List Fix) (h : acc ≠ [])
    (hse : ∀ x ∈ acc, x.range.1 ≤ x.range.2)
    (hch : List.Chain' (fun a b => a.range.2 ≤ b.range.1) acc) :
    ∀ a ∈ acc, a.range.2 ≤ (acc.getLastD junkFix).range.2 := by
  cases acc with
  | nil => exact absurd rfl h
  | cons r rs => exact chain_le_last_end r rs hse hch

lemma nonempty_chain_head_le (rs : List Fix) (h : rs ≠ [])
    (hse : ∀ x ∈ rs, x.range.1 ≤ x.range.2)
    (hch : List.Chain' (fun a b => a.range.2 ≤ b.range.1) rs) :
    ∀ b ∈ rs, (rs.headD junkFix).range.1 ≤ b.range.1 := by
  cases rs with
  | nil => exact absurd rfl h
  | cons r rest => exact chain_head_le_start r rest hse hch

/-- Invariant carried by the `nonOverlapping` accumulator: its members are
genuine ranges forming a disjoint, position-ordered chain. -/
def AccInv (acc : List Fix) : Prop :=
  (∀ r ∈ acc, r.range.1 ≤ r.range.2) ∧
  List.Chain' (fun a b => a.range.2 ≤ b.range.1) acc

/-- Core invariant of the resolver loop: every accepted finding's
replacements start strictly past every already-retained replacement's end,
and the accepted findings are pairwise separated. -/
lemma acceptedLoop_sep :
    ∀ (l : List LintMessage) (acc : List Fix), acc ≠ [] → AccInv acc →
      (∀ f ∈ l, WfFinding f) →
      (∀ g ∈ acceptedLoop false acc l, ∀ a ∈ acc,
          ∀ b ∈ getReplacements g.fix, a.range.2 < b.range.1)
      ∧ List.Pairwise SepFindings (acceptedLoop false acc l) := by
  intro l
  induction l with
  | nil =>
    intro acc _ _ _
    constructor
    · intro g hg
      simp [acceptedLoop] at hg
    · exact List.Pairwise.nil
  | cons f rest ih =>
    intro acc hne hinv hwf
    obtain ⟨hfne, hfse, hfch⟩ := hwf f (by simp)
    have hwfrest : ∀ g ∈ rest, WfFinding g :=
      fun g hg => hwf g (List.mem_cons_of_mem _ hg)
    by_cases hcond :
        overlaps (acc.getLastD junkFix) ((getReplacements f.fix).headD junkFix) = true
    · -- rejected: the new finding overlaps the last retained replacement
      have hcond' :
          overlaps (acc.getLast?.getD junkFix)
            ((getReplacements f.fix).head?.getD junkFix) = true := by
        rw [List.getLastD_eq_getLast?, List.headD_eq_head?] at hcond
        exact hcond
      have hstep : acceptedLoop false acc (f :: rest)
          = acceptedLoop false acc rest := by
        simp [acceptedLoop, hcond']
      rw [hstep]
      exact ih acc hne hinv hwfrest
    · -- accepted
      have hlt : (acc.getLastD junkFix).range.2
          < ((getReplacements f.fix).headD junkFix).range.1 := by
        simp only [overlaps, decide_eq_true_eq] at hcond
        omega
      have hcond' :
          overlaps (acc.getLast?.getD junkFix)
            ((getReplacements f.fix).head?.getD junkFix) = false := by
        rw [List.getLastD_eq_getLast?, List.headD_eq_head?] at hcond
        exact Bool.not_eq_true _ ▸ Bool.of_not_eq_true hcond
      have hstep : acceptedLoop false acc (f :: rest)
          = f :: acceptedLoop false (acc ++ getReplacements f.fix) rest := by
        simp [acceptedLoop, hcond']
      have hsep_acc : ∀ a ∈ acc, ∀ b ∈ getReplacements f.fix,
          a.range.2 < b.range.1 := by
        intro a ha b hb
        have h1 : a.range.2 ≤ (acc.getLastD junkFix).range.2 :=
          nonempty_chain_le_last acc hne hinv.1 hinv.2 a ha
        have h2 : ((getReplacements f.fix).headD junkFix).range.1 ≤ b.range.1 :=
          nonempty_chain_head_le _ hfne hfse hfch b hb
        omega
      have hinv' : AccInv (acc ++ getReplacements f.fix) := by
        constructor
        · intro x hx
          rcases List.mem_append.mp hx with h | h
          · exact hinv.1 x h
          · exact hfse x h
        · refine List.chain'_append.mpr ⟨hinv.2, hfch, ?_⟩
          intro x hx y hy
          rw [getLast?_eq_getLastD acc hne junkFix] at hx
          simp only [Option.mem_some_iff] at hx
          have hx' : x = acc.getLastD junkFix := by
            first
            | exact hx
            | exact hx.symm
          cases hr : getReplacements f.fix with
          | nil => rw [hr] at hy; cases hy
          | cons r rs =>
            rw [hr] at hy
            simp only [List.head?_cons, Option.mem_some_iff] at hy
            have hy' : y = (getReplacements f.fix).headD junkFix := by
              rw [hr]
              show y = r
              first
              | exact hy
              | exact hy.symm
            rw [hx', hy']
            exact le_of_lt hlt
      have hne' : acc ++ getReplacements f.fix ≠ [] := by
        intro hc
        rcases List.append_eq_nil.mp hc with ⟨h1, _⟩
        exact hne h1
      obtain ⟨ihsep, ihpw⟩ := ih (acc ++ getReplacements f.fix) hne' hinv' hwfrest
      rw [hstep]
      constructor
      · intro g hg a ha b hb
        rcases List.mem_cons.mp hg with rfl | hg'
        · exact hsep_acc a ha b hb
        · exact ihsep g hg' a (List.mem_append_left _ ha) b hb
      · refine List.Pairwise.cons ?_ ihpw
        intro g hg a ha b hb
        exact ihsep g hg a (List.mem_append_right _ ha) b hb

/-- The resolver's output is the concatenation of the retained findings'
replacement lists. -/
lemma nonOverlapLoop_eq_flat :
    ∀ (l : List LintMessage) (b : Bool) (acc : List Fix),
      nonOverlapLoop b acc l = acc ++ flatRepls (acceptedLoop b acc l) := by
  intro l
  induction l with
  | nil => intro b acc; simp [nonOverlapLoop, acceptedLoop, flatRepls]
  | cons f rest ih =>
    intro b acc
    by_cases hcond :
        (b || !overlaps (acc.getLast?.getD junkFix)
          ((getReplacements f.fix).head?.getD junkFix)) = true
    · have hsrc : nonOverlapLoop b acc (f :: rest)
          = nonOverlapLoop false (acc ++ getReplacements f.fix) rest := by
        simp [nonOverlapLoop, hcond]
      have hdst : acceptedLoop b acc (f :: rest)
          = f :: acceptedLoop false (acc ++ getReplacements f.fix) rest := by
        simp [acceptedLoop, hcond]
      rw [hsrc, hdst, ih, flatRepls, List.append_assoc]
    · have hcond' :
          (b || !overlaps (acc.getLast?.getD junkFix)
            ((getReplacements f.fix).head?.getD junkFix)) = false :=
        Bool.eq_false_iff.mpr hcond
      have hsrc : nonOverlapLoop b acc (f :: rest)
          = nonOverlapLoop false acc rest := by
        simp [nonOverlapLoop, hcond']
      have hdst : acceptedLoop b acc (f :: rest)
          = acceptedLoop false acc rest := by
        simp [acceptedLoop, hcond']
      rw [hsrc, hdst, ih]

lemma getNonOverlappingReplacements_eq_flat (failures : List LintMessage) :
    getNonOverlappingReplacements failures = flatRepls (acceptedFindings failures) := by
  unfold getNonOverlappingReplacements acceptedFindings
  rw [nonOverlapLoop_eq_flat, List.nil_append]

/-- The source loop agrees, on findings that all carry replacements, with
the specification walk that tracks the last retained replacement. -/
lemma acceptedLoop_eq_specWalk :
    ∀ (l : List LintMessage) (acc : List Fix), acc ≠ [] →
      (∀ f ∈ l, getReplacements f.fix ≠ []) →
      acceptedLoop false acc l = specAcceptedWalk (some (acc.getLastD junkFix)) l := by
  intro l
  induction l with
  | nil => intro acc _ _; simp [acceptedLoop, specAcceptedWalk]
  | cons f rest ih =>
    intro acc hne hall
    have hfne : getReplacements f.fix ≠ [] := hall f (by simp)
    have hrest : ∀ g ∈ rest, getReplacements g.fix ≠ [] :=
      fun g hg => hall g (List.mem_cons_of_mem _ hg)
    by_cases hcond :
        overlaps (acc.getLastD junkFix) ((getReplacements f.fix).headD junkFix) = true
    · -- rejected in the source; the spec's strict test also fails
      have hcond' :
          overlaps (acc.getLast?.getD junkFix)
            ((getReplacements f.fix).head?.getD junkFix) = true := by
        rw [List.getLastD_eq_getLast?, List.headD_eq_head?] at hcond
        exact hcond
      have hnlt : ¬ (acc.getLast?.getD junkFix).range.2
          < ((getReplacements f.fix).head?.getD junkFix).range.1 := by
        rw [← List.getLastD_eq_getLast?, ← List.headD_eq_head?]
        simp only [overlaps, decide_eq_true_eq] at hcond
        omega
      have hsrc : acceptedLoop false acc (f :: rest)
          = acceptedLoop false acc rest := by
        simp [acceptedLoop, hcond']
      have hdst : specAcceptedWalk (some (acc.getLastD junkFix)) (f :: rest)
          = specAcceptedWalk (some (acc.getLastD junkFix)) rest := by
        simp [specAcceptedWalk, hnlt]
      rw [hsrc, hdst]
      exact ih acc hne hrest
    · -- accepted by both
      have hcond' :
          overlaps (acc.getLast?.getD junkFix)
            ((getReplacements f.fix).head?.getD junkFix) = false := by
        rw [List.getLastD_eq_getLast?, List.headD_eq_head?] at hcond
        exact Bool.eq_false_iff.mpr hcond
      have hlt : (acc.getLast?.getD junkFix).range.2
          < ((getReplacements f.fix).head?.getD junkFix).range.1 := by
        rw [← List.getLastD_eq_getLast?, ← List.headD_eq_head?]
        simp only [overlaps, decide_eq_true_eq] at hcond
        omega
      have hsrc : acceptedLoop false acc (f :: rest)
          = f :: acceptedLoop false (acc ++ getReplacements f.fix) rest := by
        simp [acceptedLoop, hcond']
      have hdst : specAcceptedWalk (some (acc.getLastD junkFix)) (f :: rest)
          = f :: specAcceptedWalk ((getReplacements f.fix).getLast?) rest := by
        simp [specAcceptedWalk, hlt]
      rw [hsrc, hdst]
      have hne' : acc ++ getReplacements f.fix ≠ [] := by
        intro hc
        exact hne (List.append_eq_nil.mp hc).1
      rw [ih (acc ++ getReplacements f.fix) hne' hrest,
        getLastD_append_right acc _ hfne junkFix,
        getLast?_eq_getLastD _ hfne junkFix]

lemma acceptedFindings_eq_specWalk (failures : List LintMessage)
    (hne : ∀ f ∈ failures, getReplacements f.fix ≠ []) :
    acceptedFindings failures = specAcceptedWalk none (sortFailures failures) := by
  have hne' : ∀ f ∈ sortFailures failures, getReplacements f.fix ≠ [] :=
    fun f hf => hne f ((sortFailures_perm failures).mem_iff.mp hf)
  unfold acceptedFindings
  cases hs : sortFailures failures with
  | nil => simp [acceptedLoop, specAcceptedWalk]
  | cons f rest =>
    have hfne : getReplacements f.fix ≠ [] := hne' f (by rw [hs]; simp)
    have hrest : ∀ g ∈ rest, getReplacements g.fix ≠ [] :=
      fun g hg => hne' g (by rw [hs]; exact List.mem_cons_of_mem _ hg)
    have hstep : acceptedLoop true [] (f :: rest)
        = f :: acceptedLoop false (getReplacements f.fix) rest := by
      simp [acceptedLoop]
    have hdst : specAcceptedWalk none (f :: rest)
        = f :: specAcceptedWalk ((getReplacements f.fix).getLast?) rest := by
      simp [specAcceptedWalk]
    rw [hstep, hdst, acceptedLoop_eq_specWalk rest (getReplacements f.fix) hfne hrest,
      getLast?_eq_getLastD _ hfne junkFix]

lemma acceptedFindings_pairwise (failures : List LintMessage)
    (hwf : ∀ f ∈ failures, WfFinding f) :
    List.Pairwise SepFindings (acceptedFindings failures) := by
  have hwf' : ∀ f ∈ sortFailures failures, WfFinding f :=
    fun f hf => hwf f ((sortFailures_perm failures).mem_iff.mp hf)
  unfold acceptedFindings
  cases hs : sortFailures failures with
  | nil => simp [acceptedLoop]
  | cons f rest =>
    obtain ⟨hfne, hfse, hfch⟩ := hwf' f (by rw [hs]; simp)
    have hwfrest : ∀ g ∈ rest, WfFinding g :=
      fun g hg => hwf' g (by rw [hs]; exact List.mem_cons_of_mem _ hg)
    have hstep : acceptedLoop true [] (f :: rest)
        = f :: acceptedLoop false (getReplacements f.fix) rest := by
      simp [acceptedLoop]
    rw [hstep]
    obtain ⟨hsep, hpw⟩ :=
      acceptedLoop_sep rest (getReplacements f.fix) hfne ⟨hfse, hfch⟩ hwfrest
    exact List.Pairwise.cons (fun g hg a ha b hb => hsep g hg a ha b hb) hpw

/-- C1.  On any list of findings each carrying at least one replacement
(internally in position order and disjoint, as the data model requires),
`getNonOverlappingReplacements`:
(1) sorts the findings ascending by the start offset of their first
replacement (a permutation of the input whose keys are non-decreasing);
(2) walks the sorted list keeping the first finding unconditionally and a
subsequent finding exactly when the last retained replacement's end is
strictly less than the finding's first replacement's start (`a.end >=
b.start` rejects, so touching ranges count as overlapping) — equality with
`specAcceptedWalk`;
(3) returns precisely the retained findings' replacements; and
(4) retained findings are pairwise separated — all replacements of an
earlier retained finding end strictly before all replacements of a later
one start — hence for any replacements `(a, b)` with `a.end >= b.start`
(taken in start order) at most one of the findings owning them is kept. -/
theorem getNonOverlappingReplacements_correct (failures : List LintMessage)
    (hwf : ∀ f ∈ failures, WfFinding f) :
    (sortFailures failures).Perm failures
    ∧ List.Pairwise keyLe (sortFailures failures)
    ∧ acceptedFindings failures = specAcceptedWalk none (sortFailures failures)
    ∧ getNonOverlappingReplacements failures = flatRepls (acceptedFindings failures)
    ∧ List.Pairwise SepFindings (acceptedFindings failures) := by
  refine ⟨sortFailures_perm failures, sortFailures_pairwise failures, ?_, ?_, ?_⟩
  · exact acceptedFindings_eq_specWalk failures (fun f hf => (hwf f hf).1)
  · exact getNonOverlappingReplacements_eq_flat failures
  · exact acceptedFindings_pairwise failures hwf

/-- Concrete findings exercising C1: two overlapping fixable findings and a
separated third. -/
def c1Failures : List LintMessage :=
  [ { ruleId := some "quotemark", message := "m1", severity := 2,
      line := some 1, column := some 1, endLine := none, endColumn := none,
      fix := .one ⟨(3, 8), "x"⟩ },
    { ruleId := some "semicolon", message := "m2", severity := 1,
      line := some 1, column := some 2, endLine := none, endColumn := none,
      fix := .arr [⟨(0, 2), "y"⟩, ⟨(4, 6), "z"⟩] },
    { ruleId := some "quotemark", message := "m3", severity := 2,
      line := some 2, column := some 1, endLine := none, endColumn := none,
      fix := .one ⟨(10, 12), "w"⟩ } ]

/-- Witness for C1 at a concrete input. -/
theorem getNonOverlappingReplacements_correct_witness :
    (∀ f ∈ c1Failures, WfFinding f)
    ∧ ((sortFailures c1Failures).Perm c1Failures
      ∧ List.Pairwise keyLe (sortFailures c1Failures)
      ∧ acceptedFindings c1Failures = specAcceptedWalk none (sortFailures c1Failures)
      ∧ getNonOverlappingReplacements c1Failures = flatRepls (acceptedFindings c1Failures)
      ∧ List.Pairwise SepFindings (acceptedFindings c1Failures)) :=
  ⟨by decide, getNonOverlappingReplacements_correct c1Failures (by decide)⟩

/-!  ## Position mapping (`getTextSpan` in `src/plugin.ts`)  -/

/-- One line of a source snapshot: its text (without terminator) and the
length of its line terminator (0 for the last line, 1 for a newline,
2 for carriage return + newline). -/
structure Line where
  text : String
  term : Nat
  deriving DecidableEq, Repr

/-- A source snapshot as the TypeScript `SourceFile` service exposes it to
the plugin (an external collaborator, modelled from its documented
behaviour: `getLineStarts`, `getLineEndOfPosition`,
`getPositionOfLineAndCharacter`, `end`). -/
structure SourceFile where
  fileName : String
  lines : List Line
  deriving DecidableEq, Repr

def lineStartsAux (pos : Nat) : List Line → List Nat
  | [] => []
  | l :: rest => pos :: lineStartsAux (pos + l.text.length + l.term) rest

/-- `file.getLineStarts()`: the 0-based offsets at which each line begins. -/
def getLineStarts (f : SourceFile) : List Nat := lineStartsAux 0 f.lines

/-- `file.end`: the total length of the snapshot. -/
def fileEnd (f : SourceFile) : Nat :=
  f.lines.foldl (fun acc l => acc + l.text.length + l.term) 0

def lineIndexAux (pos : Nat) : Nat → Nat → List Nat → Nat
  | _, best, [] => best
  | idx, best, s :: rest =>
    if s ≤ pos then lineIndexAux pos (idx + 1) idx rest
    else lineIndexAux pos (idx + 1) best rest

/-- The line containing `pos`: the greatest line index whose start offset is
at or before `pos` (as `getLineAndCharacterOfPosition` computes it). -/
def lineIndexOfPosition (f : SourceFile) (pos : Nat) : Nat :=
  lineIndexAux pos 0 0 (getLineStarts f)

/-- `file.getLineEndOfPosition(pos)`: the offset of the end of the text of
the line containing `pos`, excluding the line terminator. -/
def getLineEndOfPosition (f : SourceFile) (pos : Nat) : Nat :=
  let i := lineIndexOfPosition f pos
  (getLineStarts f).getD i 0 + (f.lines.getD i ⟨"", 0⟩).text.length

/-- `file.getPositionOfLineAndCharacter(line, character)` on in-range
arguments: the line's start offset plus the character offset. -/
def getPositionOfLineAndCharacter (f : SourceFile) (line character : Nat) : Nat :=
  (getLineStarts f).getD line 0 + character

/-- The `positionResolver` closure inside `getTextSpan` (`src/plugin.ts`).
`if (line)` treats an absent or zero line as falsy; `column--` acts on the
analyzer's 1-based columns. -/
def positionResolver (file : SourceFile) (line : Option Nat) (column : Option Nat) :
    Option Nat :=
  match line with
  | none => none
  | some l =>
    if l = 0 then none
    else
      let lineStarts := getLineStarts file
      if lineStarts.length < l then
        some (getLineEndOfPosition file (lineStarts.getD (lineStarts.length - 1) 0))
      else
        let lineStart := lineStarts.getD (l - 1) 0
        let lineEnd := getLineEndOfPosition file lineStart
        match column with
        | none => some lineEnd
        | some c =>
          if c - 1 ≤ getLineEndOfPosition file lineStart - lineStart then
            some (getPositionOfLineAndCharacter file (l - 1) (c - 1))
          else
            some lineEnd

/-- A text span `{start, length, end}`; `length` is signed because the code
computes it as a plain subtraction.  The `end` field is named `endPos`. -/
structure TextSpan where
  start : Nat
  length : Int
  endPos : Nat
  deriving DecidableEq, Repr

/-- `getTextSpan` from `src/plugin.ts`: resolve start and end independently,
defaulting the start to 0 and the end to the start. -/
def getTextSpan (file : SourceFile) (lintMessage : LintMessage) : TextSpan :=
  let start := (positionResolver file lintMessage.line lintMessage.column).getD 0
  let endP := (positionResolver file lintMessage.endLine lintMessage.endColumn).getD start
  ⟨start, (endP : Int) - (start : Int), endP⟩

/-- A well-formed snapshot: at least one line (TypeScript's line-start table
is never empty) and a non-empty terminator on every line but the last. -/
def WfFile (f : SourceFile) : Prop :=
  f.lines ≠ [] ∧ ∀ l ∈ f.lines.dropLast, 1 ≤ l.term

instance (f : SourceFile) : Decidable (WfFile f) :=
  inferInstanceAs (Decidable (f.lines ≠ [] ∧ ∀ l ∈ f.lines.dropLast, 1 ≤ l.term))

lemma lineStartsAux_length (lines : List Line) :
    ∀ base, (lineStartsAux base lines).length = lines.length := by
  induction lines with
  | nil => intro base; rfl
  | cons l rest ih => intro base; simp [lineStartsAux, ih]

lemma getLineStarts_length (f : SourceFile) :
    (getLineStarts f).length = f.lines.length :=
  lineStartsAux_length f.lines 0

lemma lineStartsAux_ge (lines : List Line) :
    ∀ base, ∀ s ∈ lineStartsAux base lines, base ≤ s := by
  induction lines with
  | nil => intro base s hs; cases hs
  | cons l rest ih =>
    intro base s hs
    rcases List.mem_cons.mp hs with rfl | hs'
    · exact le_refl _
    · exact le_trans (by omega) (ih (base + l.text.length + l.term) s hs')

lemma lineStartsAux_pairwise (lines : List Line)
    (hterm : ∀ l ∈ lines.dropLast, 1 ≤ l.term) :
    ∀ base, List.Pairwise (· < ·) (lineStartsAux base lines) := by
  induction lines with
  | nil => intro base; exact List.Pairwise.nil
  | cons l rest ih =>
    intro base
    cases rest with
    | nil => simp [lineStartsAux]
    | cons l2 rest2 =>
      have hl : 1 ≤ l.term := by
        apply hterm
        simp [List.dropLast_cons_of_ne_nil]
      have hterm' : ∀ x ∈ (l2 :: rest2).dropLast, 1 ≤ x.term := by
        intro x hx
        apply hterm
        rw [List.dropLast_cons_of_ne_nil (by simp)]
        exact List.mem_cons_of_mem _ hx
      refine List.Pairwise.cons ?_ (ih hterm' (base + l.text.length + l.term))
      intro s hs
      have := lineStartsAux_ge (l2 :: rest2) (base + l.text.length + l.term) s hs
      omega

lemma getLineStarts_pairwise (f : SourceFile) (hwf : WfFile f) :
    List.Pairwise (· < ·) (getLineStarts f) :=
  lineStartsAux_pairwise f.lines hwf.2 0

lemma lineIndexAux_no_update (pos : Nat) :
    ∀ (ss : List Nat) (idx best : Nat), (∀ x ∈ ss, pos < x) →
      lineIndexAux pos idx best ss = best := by
  intro ss
  induction ss with
  | nil => intro idx best _; rfl
  | cons s rest ih =>
    intro idx best hall
    have hs : pos < s := hall s (by simp)
    simp only [lineIndexAux, if_neg (by omega : ¬ s ≤ pos)]
    exact ih (idx + 1) best (fun x hx => hall x (List.mem_cons_of_mem _ hx))

lemma lineIndexAux_getD (ss : List Nat) :
    ∀ (i idx best : Nat), i < ss.length → List.Pairwise (· < ·) ss →
      lineIndexAux (ss.getD i 0) idx best ss = idx + i := by
  induction ss with
  | nil => intro i _ _ hi _; cases hi
  | cons s rest ih =>
    intro i idx best hi hpw
    cases i with
    | zero =>
      simp only [List.getD_cons_zero, lineIndexAux, if_pos (le_refl s)]
      rw [lineIndexAux_no_update s rest (idx + 1) idx
        (fun x hx => (List.pairwise_cons.mp hpw).1 x hx)]
      omega
    | succ j =>
      have hj : j < rest.length := by simpa using hi
      have hmem : rest.getD j 0 ∈ rest := by
        rw [List.getD_eq_getElem rest 0 hj]
        exact List.getElem_mem hj
      have hslt : s < rest.getD j 0 := (List.pairwise_cons.mp hpw).1 _ hmem
      simp only [List.getD_cons_succ, lineIndexAux, if_pos (le_of_lt hslt)]
      rw [ih j (idx + 1) idx hj (List.pairwise_cons.mp hpw).2]
      omega

/-- The line index of a line's start offset is that line. -/
lemma lineIndexOfPosition_at_start (f : SourceFile) (hwf : WfFile f)
    (i : Nat) (hi : i < (getLineStarts f).length) :
    lineIndexOfPosition f ((getLineStarts f).getD i 0) = i := by
  unfold lineIndexOfPosition
  rw [lineIndexAux_getD (getLineStarts f) i 0 0 hi (getLineStarts_pairwise f hwf)]
  omega

/-- `getLineEndOfPosition` at a line's start offset: the start plus the
line's text length. -/
lemma getLineEndOfPosition_at_start (f : SourceFile) (hwf : WfFile f)
    (i : Nat) (hi : i < (getLineStarts f).length) :
    getLineEndOfPosition f ((getLineStarts f).getD i 0)
      = (getLineStarts f).getD i 0 + (f.lines.getD i ⟨"", 0⟩).text.length := by
  unfold getLineEndOfPosition
  rw [lineIndexOfPosition_at_start f hwf i hi]

lemma positionResolver_some (file : SourceFile) (l : Nat) (column : Option Nat)
    (hl : l ≠ 0) :
    positionResolver file (some l) column =
      (if (getLineStarts file).length < l then
        some (getLineEndOfPosition file
          ((getLineStarts file).getD ((getLineStarts file).length - 1) 0))
      else
        match column with
        | none => some (getLineEndOfPosition file ((getLineStarts file).getD (l - 1) 0))
        | some c =>
          if c - 1 ≤ getLineEndOfPosition file ((getLineStarts file).getD (l - 1) 0)
              - (getLineStarts file).getD (l - 1) 0 then
            some (getPositionOfLineAndCharacter file (l - 1) (c - 1))
          else
            some (getLineEndOfPosition file ((getLineStarts file).getD (l - 1) 0))) := by
  simp only [positionResolver]
  rw [if_neg hl]

/-- C2.  For a well-formed snapshot: the position resolver returns `null`
exactly when the 1-based line is absent or zero; a line past the line count
clamps to the end of the last known line; an absent column resolves to the
line's end offset; a column overshooting the line's length clamps to the
line's end offset; and `getTextSpan` resolves `(line, column)` and
`(endLine, endColumn)` independently, defaulting the end to the start and
the start to 0, with `length = end - start`. -/
theorem getTextSpan_positionResolver_correct (file : SourceFile) (hwf : WfFile file) :
    (∀ line column, positionResolver file line column = none
      ↔ (line = none ∨ line = some 0))
    ∧ (∀ l column, (getLineStarts file).length < l →
        positionResolver file (some l) column
          = some ((getLineStarts file).getD ((getLineStarts file).length - 1) 0
              + (file.lines.getD ((getLineStarts file).length - 1) ⟨"", 0⟩).text.length))
    ∧ (∀ l, 1 ≤ l → l ≤ (getLineStarts file).length →
        positionResolver file (some l) none
          = some ((getLineStarts file).getD (l - 1) 0
              + (file.lines.getD (l - 1) ⟨"", 0⟩).text.length))
    ∧ (∀ l c, 1 ≤ l → l ≤ (getLineStarts file).length →
        (file.lines.getD (l - 1) ⟨"", 0⟩).text.length < c - 1 →
        positionResolver file (some l) (some c)
          = some ((getLineStarts file).getD (l - 1) 0
              + (file.lines.getD (l - 1) ⟨"", 0⟩).text.length))
    ∧ (∀ m : LintMessage,
        (getTextSpan file m).start = (positionResolver file m.line m.column).getD 0
        ∧ (getTextSpan file m).endPos
            = (positionResolver file m.endLine m.endColumn).getD
                ((positionResolver file m.line m.column).getD 0)
        ∧ (getTextSpan file m).length
            = ((getTextSpan file m).endPos : Int) - ((getTextSpan file m).start : Int)) := by
  have hpos : 0 < (getLineStarts file).length := by
    rw [getLineStarts_length]
    exact List.length_pos.mpr hwf.1
  refine ⟨?_, ?_, ?_, ?_, ?_⟩
  · intro line column
    cases line with
    | none => simp [positionResolver]
    | some l =>
      by_cases hl : l = 0
      · subst hl; simp [positionResolver]
      · rw [positionResolver_some file l column hl]
        constructor
        · intro h
          split at h
          · cases h
          · split at h
            · cases h
            · split at h
              · cases h
              · cases h
        · intro h
          rcases h with h | h
          · cases h
          · exact absurd (Option.some.inj h) hl
  · intro l column hlen
    have hl0 : l ≠ 0 := by omega
    rw [positionResolver_some file l column hl0, if_pos hlen,
      getLineEndOfPosition_at_start file hwf _ (by omega)]
  · intro l h1 h2
    have hl0 : l ≠ 0 := by omega
    rw [positionResolver_some file l none hl0, if_neg (by omega :
      ¬ (getLineStarts file).length < l)]
    show some (getLineEndOfPosition file ((getLineStarts file).getD (l - 1) 0)) = _
    rw [getLineEndOfPosition_at_start file hwf (l - 1) (by omega)]
  · intro l c h1 h2 hc
    have hl0 : l ≠ 0 := by omega
    have hle := getLineEndOfPosition_at_start file hwf (l - 1) (by omega)
    rw [positionResolver_some file l (some c) hl0, if_neg (by omega :
      ¬ (getLineStarts file).length < l)]
    show (if c - 1 ≤ getLineEndOfPosition file ((getLineStarts file).getD (l - 1) 0)
        - (getLineStarts file).getD (l - 1) 0 then
          some (getPositionOfLineAndCharacter file (l - 1) (c - 1))
        else some (getLineEndOfPosition file ((getLineStarts file).getD (l - 1) 0))) = _
    rw [hle, if_neg (by omega)]
  · intro m
    exact ⟨rfl, rfl, rfl⟩

/-- Concrete two-line snapshot exercising C2. -/
def c2File : SourceFile :=
  { fileName := "a.ts", lines := [⟨"ab", 1⟩, ⟨"cde", 0⟩] }

/-- Witness for C2 at a concrete snapshot. -/
theorem getTextSpan_positionResolver_correct_witness :
    WfFile c2File
    ∧ ((∀ line column, positionResolver c2File line column = none
        ↔ (line = none ∨ line = some 0))
      ∧ (∀ l column, (getLineStarts c2File).length < l →
          positionResolver c2File (some l) column
            = some ((getLineStarts c2File).getD ((getLineStarts c2File).length - 1) 0
                + (c2File.lines.getD ((getLineStarts c2File).length - 1) ⟨"", 0⟩).text.length))
      ∧ (∀ l, 1 ≤ l → l ≤ (getLineStarts c2File).length →
          positionResolver c2File (some l) none
            = some ((getLineStarts c2File).getD (l - 1) 0
                + (c2File.lines.getD (l - 1) ⟨"", 0⟩).text.length))
      ∧ (∀ l c, 1 ≤ l → l ≤ (getLineStarts c2File).length →
          (c2File.lines.getD (l - 1) ⟨"", 0⟩).text.length < c - 1 →
          positionResolver c2File (some l) (some c)
            = some ((getLineStarts c2File).getD (l - 1) 0
                + (c2File.lines.getD (l - 1) ⟨"", 0⟩).text.length))
      ∧ (∀ m : LintMessage,
          (getTextSpan c2File m).start
            = (positionResolver c2File m.line m.column).getD 0
          ∧ (getTextSpan c2File m).endPos
              = (positionResolver c2File m.endLine m.endColumn).getD
                  ((positionResolver c2File m.line m.column).getD 0)
          ∧ (getTextSpan c2File m).length
              = ((getTextSpan c2File m).endPos : Int)
                - ((getTextSpan c2File m).start : Int))) :=
  ⟨by decide, getTextSpan_positionResolver_correct c2File (by decide)⟩

/-!  ## Overlay data model (`src/plugin.ts`)  -/

/-- `ESLINT_ERROR_CODE` and `ESLINT_ERROR_SOURCE` come from `src/config.ts`,
which is not among the provided sources.  Modelled from the spec: fixed
constant tags attached to every synthesized diagnostic (no claim observes
their concrete values). -/
def ESLINT_ERROR_CODE : Nat := 100000

def ESLINT_ERROR_SOURCE : String := "eslint"

inductive DiagnosticCategory where
  | Warning | Error | Suggestion | Message
  deriving DecidableEq, Repr

/-- `ts.Diagnostic`, restricted to the fields the plugin produces/reads.
`length` is signed because `getTextSpan` computes it by subtraction. -/
structure Diagnostic where
  fileName : String
  start : Nat
  length : Int
  messageText : String
  category : DiagnosticCategory
  source : String
  code : Nat
  deriving DecidableEq, Repr

/-- The `Problem` record of `src/plugin.ts`. -/
structure Problem where
  failure : LintMessage
  fixable : Bool
  deriving DecidableEq, Repr

/-- Insertion-ordered map with JavaScript `Map` semantics: `set` on an
existing key replaces the value in place, otherwise appends. -/
def jsMapSet {α : Type} : List (String × α) → String → α → List (String × α)
  | [], k, v => [(k, v)]
  | (k', v') :: rest, k, v =>
    if k' = k then (k, v) :: rest else (k', v') :: jsMapSet rest k v

def jsMapGet {α : Type} : List (String × α) → String → Option α
  | [], _ => none
  | (k', v') :: rest, k => if k' = k then some v' else jsMapGet rest k

def jsMapDelete {α : Type} : List (String × α) → String → List (String × α)
  | [], _ => []
  | (k', v') :: rest, k => if k' = k then rest else (k', v') :: jsMapDelete rest k

/-- The `ProblemMap` of `src/plugin.ts`: problems keyed by span. -/
abbrev ProblemMap := List (String × Problem)

/-- `this.codeFixActions`: per-file problem maps. -/
abbrev Registry := List (String × ProblemMap)

/-- `ProblemMap.key`: `[start,end]`. -/
def problemKey (start endP : Nat) : String :=
  "[" ++ toString start ++ "," ++ toString endP ++ "]"

def pmGet (m : ProblemMap) (start endP : Nat) : Option Problem :=
  jsMapGet m (problemKey start endP)

def pmSet (m : ProblemMap) (start endP : Nat) (problem : Problem) : ProblemMap :=
  jsMapSet m (problemKey start endP) problem

def pmValues (m : ProblemMap) : List Problem := m.map Prod.snd

/-- JavaScript string truthiness of an optional string. -/
def strTruthy : Option String → Bool
  | none => false
  | some s => !s.isEmpty

/-- JavaScript truthiness of a `fix` value (`undefined` is falsy; objects
and arrays are truthy). -/
def fixTruthy : FixValue → Bool
  | .undef => false
  | _ => true

/-- Template-literal rendering of a nullable string (`null` prints "null"). -/
def optStr : Option String → String
  | none => "null"
  | some s => s

/-- `String.prototype.endsWith`, computed on character lists so the kernel
can evaluate it (the built-in `String.endsWith` recursion does not
reduce definitionally). -/
def strEndsWith (s suffix : String) : Bool :=
  decide ((s.toList.drop (s.toList.length - suffix.toList.length)) = suffix.toList)

/-- `replacementsAreEmpty` from `src/plugin.ts` (`Array.isArray(fix)` then
`fix.length === 0`). -/
def replacementsAreEmpty : FixValue → Bool
  | .arr fs => fs.length == 0
  | _ => false

/-- `recordCodeAction` from `src/plugin.ts`. -/
def recordCodeAction (failure : LintMessage) (file : SourceFile)
    (codeFixActions : Registry) : Registry :=
  let fixable := fixTruthy failure.fix && !replacementsAreEmpty failure.fix
  let documentAutoFixes := (jsMapGet codeFixActions file.fileName).getD []
  let span := getTextSpan file failure
  jsMapSet codeFixActions file.fileName
    (pmSet documentAutoFixes span.start span.endPos ⟨failure, fixable⟩)

/-- The plugin configuration fields read by the embedded operations. -/
structure PluginConfig where
  suppressWhileTypeErrorsPresent : Bool
  ignoreDefinitionFiles : Bool
  jsEnable : Bool
  alwaysShowRuleFailuresAsWarnings : Option Bool
  configFile : Option String
  exclude : List String
  packageManager : Option String
  deriving DecidableEq, Repr

/-- `getDiagnosticCategory` from `src/plugin.ts`. -/
def getDiagnosticCategory (config : PluginConfig) (failure : LintMessage) :
    DiagnosticCategory :=
  if config.alwaysShowRuleFailuresAsWarnings = some true
      ∨ config.alwaysShowRuleFailuresAsWarnings = none then
    .Warning
  else if failure.severity ≠ 0 ∧ failure.severity = 2 then
    .Error
  else
    .Warning

/-- `makeDiagnostic` from `src/plugin.ts`. -/
def makeDiagnostic (config : PluginConfig) (failure : LintMessage)
    (file : SourceFile) : Diagnostic :=
  let message :=
    match failure.ruleId with
    | some rid => failure.message ++ " (" ++ rid ++ ")"
    | none => failure.message
  let category := getDiagnosticCategory config failure
  let span := getTextSpan file failure
  { fileName := file.fileName, start := span.start, length := span.length,
    messageText := message, category := category,
    source := ESLINT_ERROR_SOURCE, code := ESLINT_ERROR_CODE }

/-- `ts.TextChange` (`span.length` is a plain subtraction in the source). -/
structure TextChange where
  newText : String
  spanStart : Nat
  spanLength : Int
  deriving DecidableEq, Repr

structure FileTextChanges where
  fileName : String
  textChanges : List TextChange
  deriving DecidableEq, Repr

/-- `ts.CodeFixAction`, restricted to the produced fields. -/
structure CodeFixAction where
  fixName : String
  description : String
  changes : List FileTextChanges
  fixId : Option String := none
  fixAllDescription : Option String := none
  deriving DecidableEq, Repr

def convertReplacementToTextChange (repl : Fix) : TextChange :=
  ⟨repl.text, repl.range.1, (repl.range.2 : Int) - (repl.range.1 : Int)⟩

def convertFixToTextChange (fix : Fix) : TextChange :=
  ⟨fix.text, fix.range.1, (fix.range.2 : Int) - (fix.range.1 : Int)⟩

/-- A stand-in for the `TypeError` JavaScript would raise if
`convertFixToTextChange` were handed an array (`plugin.ts` types
`failure.fix` as a single `Rule.Fix`); theorems about fix synthesis carry a
no-array hypothesis keeping this value out of their domain. -/
def junkTextChange : TextChange := ⟨"", 0, 0⟩

def isArrFix : FixValue → Bool
  | .arr _ => true
  | _ => false

/-- `failureToFileTextChange` from `src/plugin.ts`. -/
def failureToFileTextChange (failure : LintMessage) (fileName : String) :
    FileTextChanges :=
  { fileName := fileName,
    textChanges :=
      match failure.fix with
      | .undef => []
      | .one f => [convertFixToTextChange f]
      | .arr _ => [junkTextChange] }

/-- `EsLintFixId.fromFailure`. -/
def eslintFixIdFromFailure (failure : LintMessage) : String :=
  "eslint:" ++ optStr failure.ruleId

/-- `getRuleFailureQuickFix` from `src/plugin.ts`. -/
def getRuleFailureQuickFix (failure : LintMessage) (fileName : String) :
    CodeFixAction :=
  { description := "Fix: " ++ failure.message,
    fixName := "eslint:" ++ optStr failure.ruleId,
    changes := [failureToFileTextChange failure fileName] }

/-- `getRuleFailureFixAllQuickFix` from `src/plugin.ts`. -/
def getRuleFailureFixAllQuickFix (ruleName : String) (problems : ProblemMap)
    (fileName : String) : Option CodeFixAction :=
  let changes :=
    ((pmValues problems).filter
      (fun problem => problem.fixable && decide (problem.failure.ruleId = some ruleName))).map
      (fun problem => failureToFileTextChange problem.failure fileName)
  if changes.length < 2 then
    none
  else
    some { description := "Fix all '" ++ ruleName ++ "'",
           fixName := "eslint:fix-all:" ++ ruleName, changes := changes }

/-- `getFixAllAutoFixableQuickFix` from `src/plugin.ts`. -/
def getFixAllAutoFixableQuickFix (documentFixes : ProblemMap)
    (fileName : String) : CodeFixAction :=
  let allReplacements := getNonOverlappingReplacements
    (((pmValues documentFixes).filter (fun x => x.fixable)).map (fun x => x.failure))
  { description := "Fix all auto-fixable eslint failures",
    fixName := "eslint:fix-all",
    changes := [{ fileName := fileName,
                  textChanges := allReplacements.map convertReplacementToTextChange }] }

def substringFromTo (s : String) (a b : Nat) : String :=
  String.mk ((s.toList.drop a).take (b - a))

/-- The `/^([ 	]+)/` leading-whitespace match. -/
def leadingWs (s : String) : String :=
  String.mk (s.toList.takeWhile (fun c => c = ' ' ∨ c = '	'))

/-- `getDisableRuleQuickFix` from `src/plugin.ts`.  `snapshot` is the host's
script snapshot text (absent when `getScriptSnapshot` returns nothing);
findings reaching this point carry a present, 1-based line. -/
def getDisableRuleQuickFix (failure : LintMessage) (fileName : String)
    (file : SourceFile) (snapshot : Option String) : CodeFixAction :=
  let line := failure.line.getD 1 - 1
  let lineStarts := getLineStarts file
  let lineStart := lineStarts.getD line 0
  let pfx :=
    match snapshot with
    | none => ""
    | some text =>
      let lineEnd :=
        if line < lineStarts.length - 1 then lineStarts.getD (line + 1) 0
        else fileEnd file
      leadingWs (substringFromTo text lineStart lineEnd)
  { description := "Disable rule '" ++ optStr failure.ruleId ++ "'",
    fixName := "eslint:disable:" ++ optStr failure.ruleId,
    changes := [{ fileName := fileName,
                  textChanges := [⟨pfx ++ "// eslint-disable-next-line "
                    ++ optStr failure.ruleId ++ "
", lineStart, 0⟩] }] }

/-- `getCodeFixesAtPosition` from `src/plugin.ts`.  `hostFixes` is the
delegate's answer; the registry, snapshot and source file stand in for the
plugin's ambient state. -/
def getCodeFixesAtPosition (config : PluginConfig) (codeFixActions : Registry)
    (file : SourceFile) (snapshot : Option String)
    (hostFixes : List CodeFixAction) (fileName : String) (start endP : Nat) :
    List CodeFixAction :=
  let fixes := hostFixes
  if config.suppressWhileTypeErrorsPresent && decide (fixes.length > 0) then
    fixes
  else
    match jsMapGet codeFixActions fileName with
    | none => fixes
    | some documentFixes =>
      match pmGet documentFixes start endP with
      | none => fixes
      | some problem =>
        if strTruthy problem.failure.ruleId then
          let fixes2 :=
            if problem.fixable then
              if fixTruthy problem.failure.fix then
                let codeFixAction := getRuleFailureQuickFix problem.failure fileName
                let fixAll := getRuleFailureFixAllQuickFix
                  (optStr problem.failure.ruleId) documentFixes fileName
                let codeFixAction :=
                  if fixAll.isSome then
                    { codeFixAction with
                      fixId := some (eslintFixIdFromFailure problem.failure),
                      fixAllDescription :=
                        some ("Fix all '" ++ optStr problem.failure.ruleId ++ "'") }
                  else codeFixAction
                fixes ++ [codeFixAction,
                  getFixAllAutoFixableQuickFix documentFixes fileName]
              else fixes
            else fixes
          fixes2 ++ [getDisableRuleQuickFix problem.failure fileName file snapshot]
        else
          fixes

/-- One per-file result inside an eslint report. -/
structure LintFileResult where
  filePath : Option String
  messages : List LintMessage
  deriving DecidableEq, Repr

/-- `eslint.CLIEngine.LintReport`, restricted to the fields the plugin and
runner read. -/
structure LintReport where
  results : List LintFileResult
  errorCount : Nat
  warningCount : Nat
  deriving DecidableEq, Repr

/-- `filterProblemsForFile` from `src/runner/failures.ts` (the report-based
variant the plugin calls).  `normalize` is `path.normalize`; the source's
`normalizedFiles` map only memoizes it. -/
def filterProblemsForFile (normalize : String → String) (filePath : String)
    (report : LintReport) : List LintMessage :=
  let normalizedPath := normalize filePath
  report.results.foldl
    (fun messages result =>
      match result.filePath with
      | none => messages
      | some fileName =>
        if fileName.isEmpty then messages
        else if normalize fileName = normalizedPath then messages ++ result.messages
        else messages)
    []

/-- `RunResult` from `src/runner/index.ts`. -/
structure RunResult where
  lintResult : LintReport
  warnings : List String
  workspaceFolderPath : Option String
  configFilePath : Option String
  deriving DecidableEq, Repr

/-- `getSemanticDiagnostics` from `src/plugin.ts`.  The host delegate's
diagnostics, the runner's outcome (`Except.error` for a thrown exception,
including a library-load crash), the file-existence test and the program's
current directory are parameters; the returned pair carries the published
diagnostics and the updated registry.  Logging and config-file watching are
external effects without observable state here. -/
def getSemanticDiagnostics (normalize : String → String) (config : PluginConfig)
    (fileExists : String → Bool) (currentDirectory : String)
    (file : SourceFile) (hostDiagnostics : List Diagnostic) (fileName : String)
    (runner : Except String RunResult) (codeFixActions : Registry) :
    List Diagnostic × Registry :=
  let diagnostics := hostDiagnostics
  if decide (diagnostics.length > 0) && config.suppressWhileTypeErrorsPresent then
    (diagnostics, codeFixActions)
  else
    let codeFixActions := jsMapDelete codeFixActions fileName
    if config.ignoreDefinitionFiles && strEndsWith fileName ".d.ts" then
      (diagnostics, codeFixActions)
    else
      match runner with
      | .error _ => (diagnostics, codeFixActions)
      | .ok result =>
        let diagnostics :=
          if (strTruthy result.configFilePath
                && fileExists (result.configFilePath.getD ""))
              || fileExists (currentDirectory ++ "/eslint.json") then
            result.warnings.foldl
              (fun acc warning =>
                { fileName := file.fileName, start := 0, length := 1,
                  messageText := warning, category := DiagnosticCategory.Warning,
                  source := ESLINT_ERROR_SOURCE, code := ESLINT_ERROR_CODE } :: acc)
              diagnostics
          else diagnostics
        let eslintProblems := filterProblemsForFile normalize fileName result.lintResult
        eslintProblems.foldl
          (fun acc problem =>
            (acc.1 ++ [makeDiagnostic config problem file],
             recordCodeAction problem file acc.2))
          (diagnostics, codeFixActions)

/-- The observable surface of a `ts.LanguageService` for `decorate`:
whether the sentinel `isEsLintLanguageServiceMarker` property reports
`true`, the identity of the underlying service, and how many proxy
wrappers enclose it. -/
structure LanguageService where
  marker : Bool
  serviceId : Nat
  wrappers : Nat
  deriving DecidableEq, Repr

/-- `decorate` from `src/plugin.ts`.  On an already-marked service the
source executes a bare `return;`, i.e. yields `undefined` (`none`);
otherwise it returns a new `Proxy` whose `get` reports the marker and
delegates everything else. -/
def decorate (languageService : LanguageService) : Option LanguageService :=
  if languageService.marker then
    none
  else
    some { languageService with
           marker := true
           wrappers := languageService.wrappers + 1 }

/-!  ## Lint tool runner (`src/runner/index.ts`)  -/

/-- `RunConfiguration` from `src/runner/index.ts` (fields used by `doRun`
and the exclusion test). -/
structure RunConfiguration where
  allowInlineConfig : Option Bool
  reportUnusedDisableDirectives : Option Bool
  jsEnable : Bool
  configFile : Option String
  ignoreDefinitionFiles : Bool
  exclude : List String
  nodePath : Option String
  packageManager : Option String
  workspaceFolderPath : Option String
  deriving DecidableEq, Repr

/-- `emptyLintResult` (the source also carries fixable counts and
deprecated-rule lists, which nothing here reads). -/
def emptyLintResult : LintReport :=
  { results := [], errorCount := 0, warningCount := 0 }

/-- `emptyResult` from `src/runner/index.ts`. -/
def emptyResult : RunResult :=
  { lintResult := emptyLintResult, warnings := [],
    workspaceFolderPath := none, configFilePath := none }

/-- `isJsDocument`: the case-insensitive `/\.(jsx?|mjs)$/i` test. -/
def isJsDocument (filePath : String) : Bool :=
  let lower := String.mk (filePath.toList.map Char.toLower)
  strEndsWith lower ".js" || strEndsWith lower ".jsx" || strEndsWith lower ".mjs"

/-- `testForExclusionPattern` from `src/runner/index.ts`.  `mm` is the
external `minimatch(path, pattern, {dot: true})` matcher and `rel` is
`path.relative`, both external collaborators passed as parameters. -/
def testForExclusionPattern (mm : String → String → Bool)
    (rel : String → String → String)
    (filePath : String) (pattern : String) (cwd : Option String) : Bool :=
  match cwd with
  | some c =>
    let relPath := rel c filePath
    if mm relPath pattern then true
    else if relPath = filePath then false
    else mm filePath pattern
  | none => mm filePath pattern

/-- `fileIsExcluded` from `src/runner/index.ts`. -/
def fileIsExcluded (mm : String → String → Bool)
    (rel : String → String → String)
    (settings : RunConfiguration) (filePath : String) (cwd : Option String) :
    Bool :=
  if settings.ignoreDefinitionFiles && strEndsWith filePath ".d.ts" then
    true
  else
    settings.exclude.any (fun pattern =>
      testForExclusionPattern mm rel filePath pattern cwd)

/-- Process-wide mutable state touched by `doRun`: the working directory
(`process.cwd`/`process.chdir`) and the identity of the installed
`console.warn` handler. -/
structure ProcState where
  cwd : String
  consoleWarn : Nat
  deriving DecidableEq, Repr

/-- The options object handed to `new CLIEngine(options)`. -/
structure LintOptions where
  filename : String
  fix : Bool
  allowInlineConfig : Option Bool
  reportUnusedDisableDirectives : Option Bool
  deriving DecidableEq, Repr

/-- `x || undefined` on an optional boolean: `false` collapses to
`undefined`. -/
def orUndefined : Option Bool → Option Bool
  | some true => some true
  | _ => none

def mkLintOptions (configuration : RunConfiguration) (filePath : String) :
    LintOptions :=
  { filename := filePath, fix := false,
    allowInlineConfig := orUndefined configuration.allowInlineConfig,
    reportUnusedDisableDirectives :=
      orUndefined configuration.reportUnusedDisableDirectives }

/-- The `cwd` computed at the top of `doRun`: the workspace folder when
truthy, else the program's current directory. -/
def computedCwd (configuration : RunConfiguration) (contentsCwd : Option String) :
    Option String :=
  if strTruthy configuration.workspaceFolderPath then
    configuration.workspaceFolderPath
  else contentsCwd

/-- `doRun` from `src/runner/index.ts`.  `contentsCwd` is
`contents.getCurrentDirectory()` when `contents` is a `Program` (and `none`
for string contents); `linter` models constructing `CLIEngine(options)` and
calling `executeOnFiles([filePath])` — it may throw (`Except.error`) and
additionally yields whatever messages it printed through `console.warn`,
which the installed capture handler appends to `warnings`.  The returned
state reflects the `try`/`finally` blocks: the capture handler is a fresh
function (a distinct identity), and both finalizers run on every path. -/
def doRun (mm : String → String → Bool) (rel : String → String → String)
    (filePath : String) (contentsCwd : Option String)
    (linter : LintOptions → Except String LintReport × List String)
    (configuration : RunConfiguration) (warnings : List String)
    (st : ProcState) : Except String RunResult × ProcState :=
  let cwd := computedCwd configuration contentsCwd
  if fileIsExcluded mm rel configuration filePath cwd then
    (.ok emptyResult, st)
  else
    let cwdToRestore : Option String :=
      if strTruthy cwd then some st.cwd else none
    let st1 := if strTruthy cwd then { st with cwd := cwd.getD "" } else st
    let body : Except String RunResult × ProcState :=
      if isJsDocument filePath && !configuration.jsEnable then
        (.ok emptyResult, st1)
      else
        let originalConsoleWarn := st1.consoleWarn
        let stCapture := { st1 with consoleWarn := originalConsoleWarn + 1 }
        let run := linter (mkLintOptions configuration filePath)
        let stRestored := { stCapture with consoleWarn := originalConsoleWarn }
        match run.1 with
        | .error e => (.error e, stRestored)
        | .ok report =>
          (.ok { lintResult := report, warnings := warnings ++ run.2,
                 workspaceFolderPath := configuration.workspaceFolderPath,
                 configFilePath := none }, stRestored)
    match cwdToRestore with
    | some c => (body.1, { body.2 with cwd := c })
    | none => body

/-!  ## Theorems for the overlay claims  -/

lemma jsMapGet_set_self {α : Type} (m : List (String × α)) (k : String) (v : α) :
    jsMapGet (jsMapSet m k v) k = some v := by
  induction m with
  | nil => simp [jsMapSet, jsMapGet]
  | cons kv rest ih =>
    obtain ⟨k', v'⟩ := kv
    simp only [jsMapSet]
    by_cases h : k' = k
    · simp [h, jsMapGet]
    · simp [jsMapGet, h, ih]

/-- C3.  When the Lint Tool Runner throws (`Except.error`, covering library
load crashes and analyzer crashes), `getSemanticDiagnostics` swallows the
exception and returns exactly the host's own diagnostics; the function is
total, so nothing escapes to the caller. -/
theorem getSemanticDiagnostics_runner_error (normalize : String → String)
    (config : PluginConfig) (fileExists : String → Bool)
    (currentDirectory : String) (file : SourceFile)
    (hostDiagnostics : List Diagnostic) (fileName : String) (e : String)
    (codeFixActions : Registry) :
    (getSemanticDiagnostics normalize config fileExists currentDirectory file
      hostDiagnostics fileName (.error e) codeFixActions).1 = hostDiagnostics := by
  unfold getSemanticDiagnostics
  by_cases h1 : (decide (hostDiagnostics.length > 0)
      && config.suppressWhileTypeErrorsPresent) = true
  · simp [h1]
  · by_cases h2 : (config.ignoreDefinitionFiles && strEndsWith fileName ".d.ts") = true
    · simp [h1, h2]
    · simp [h1, h2]

/-- C5.  `recordCodeAction` stores the problem under its span key with
`fixable` computed exactly as `!!(failure.fix && !replacementsAreEmpty(
failure.fix))`: true iff the fix exists and, when it is an array, that
array is non-empty; in particular no fix gives `false` and a fix carrying
at least one replacement gives `true`. -/
theorem recordCodeAction_fixable_correct (failure : LintMessage)
    (file : SourceFile) (codeFixActions : Registry) :
    pmGet ((jsMapGet (recordCodeAction failure file codeFixActions)
        file.fileName).getD [])
      (getTextSpan file failure).start (getTextSpan file failure).endPos
      = some ⟨failure, fixTruthy failure.fix && !replacementsAreEmpty failure.fix⟩
    ∧ ((fixTruthy failure.fix && !replacementsAreEmpty failure.fix) = true
        ↔ failure.fix ≠ .undef ∧ ∀ fs, failure.fix = .arr fs → fs ≠ [])
    ∧ (failure.fix = .undef →
        (fixTruthy failure.fix && !replacementsAreEmpty failure.fix) = false)
    ∧ (∀ f, failure.fix = .one f →
        (fixTruthy failure.fix && !replacementsAreEmpty failure.fix) = true)
    ∧ (∀ fs, failure.fix = .arr fs → fs ≠ [] →
        (fixTruthy failure.fix && !replacementsAreEmpty failure.fix) = true) := by
  refine ⟨?_, ?_, ?_, ?_, ?_⟩
  · unfold recordCodeAction pmSet pmGet
    rw [jsMapGet_set_self]
    simp only [Option.getD_some]
    exact jsMapGet_set_self _ _ _
  · cases hf : failure.fix with
    | undef => simp [fixTruthy, replacementsAreEmpty]
    | one f => simp [fixTruthy, replacementsAreEmpty]
    | arr fs =>
      cases fs with
      | nil => simp [fixTruthy, replacementsAreEmpty]
      | cons g gs => simp [fixTruthy, replacementsAreEmpty]
  · intro h; rw [h]; rfl
  · intro f h; rw [h]; rfl
  · intro fs h hne
    rw [h]
    cases fs with
    | nil => exact absurd rfl hne
    | cons g gs => rfl

/-- Configuration value used by the C6 witness. -/
def suppressConfig : PluginConfig :=
  { suppressWhileTypeErrorsPresent := true, ignoreDefinitionFiles := false,
    jsEnable := false, alwaysShowRuleFailuresAsWarnings := none,
    configFile := none, exclude := [], packageManager := none }

def hostDiag : Diagnostic :=
  { fileName := "a.ts", start := 0, length := 1, messageText := "host",
    category := .Error, source := "ts", code := 1 }

def hostFix : CodeFixAction :=
  { fixName := "host", description := "host fix", changes := [] }

/-- C6.  With `suppressWhileTypeErrorsPresent` configured: non-empty host
diagnostics short-circuit `getSemanticDiagnostics` — the host diagnostics
come back unchanged, the registry is untouched, and the result does not
depend on the runner at all; likewise non-empty host fixes short-circuit
`getCodeFixesAtPosition` to exactly the host fixes. -/
theorem suppress_shortCircuits (normalize : String → String)
    (config : PluginConfig) (fileExists : String → Bool)
    (currentDirectory : String) (file : SourceFile)
    (snapshot : Option String) (hostDiagnostics : List Diagnostic)
    (hostFixes : List CodeFixAction) (fileName : String)
    (runner : Except String RunResult) (codeFixActions : Registry)
    (start endP : Nat)
    (hsup : config.suppressWhileTypeErrorsPresent = true)
    (hdiag : hostDiagnostics ≠ []) (hfix : hostFixes ≠ []) :
    getSemanticDiagnostics normalize config fileExists currentDirectory file
      hostDiagnostics fileName runner codeFixActions
      = (hostDiagnostics, codeFixActions)
    ∧ getCodeFixesAtPosition config codeFixActions file snapshot hostFixes
        fileName start endP = hostFixes := by
  constructor
  · unfold getSemanticDiagnostics
    rw [if_pos]
    rw [hsup, Bool.and_true, decide_eq_true_eq]
    exact List.length_pos.mpr hdiag
  · unfold getCodeFixesAtPosition
    rw [if_pos]
    rw [hsup, Bool.true_and, decide_eq_true_eq]
    exact List.length_pos.mpr hfix

/-- Witness for C6 at concrete inputs. -/
theorem suppress_shortCircuits_witness :
    (suppressConfig.suppressWhileTypeErrorsPresent = true
      ∧ [hostDiag] ≠ ([] : List Diagnostic)
      ∧ [hostFix] ≠ ([] : List CodeFixAction))
    ∧ (getSemanticDiagnostics (fun s => s) suppressConfig (fun _ => true) "/w"
        c2File [hostDiag] "a.ts" (.ok emptyResult) [] = ([hostDiag], [])
      ∧ getCodeFixesAtPosition suppressConfig [] c2File none [hostFix]
          "a.ts" 0 1 = [hostFix]) :=
  ⟨⟨rfl, by decide, by decide⟩,
    suppress_shortCircuits (fun s => s) suppressConfig (fun _ => true) "/w"
      c2File none [hostDiag] [hostFix] "a.ts" (.ok emptyResult) [] 0 1
      rfl (by decide) (by decide)⟩

/-- C8.  `doRun` restores the process working directory and the
`console.warn` handler on every path, whether the analyzer returns or
throws. -/
theorem doRun_restores_state (mm : String → String → Bool)
    (rel : String → String → String) (filePath : String)
    (contentsCwd : Option String)
    (linter : LintOptions → Except String LintReport × List String)
    (configuration : RunConfiguration) (warnings : List String)
    (st : ProcState) :
    ((doRun mm rel filePath contentsCwd linter configuration warnings st).2).cwd
      = st.cwd
    ∧ ((doRun mm rel filePath contentsCwd linter configuration
        warnings st).2).consoleWarn = st.consoleWarn := by
  by_cases hex : fileIsExcluded mm rel configuration filePath
      (computedCwd configuration contentsCwd) = true
  all_goals by_cases hcwd : strTruthy (computedCwd configuration contentsCwd) = true
  all_goals by_cases hjs : (isJsDocument filePath && !configuration.jsEnable) = true
  all_goals cases hrun : (linter (mkLintOptions configuration filePath)).1
  all_goals simp [doRun, hex, hcwd, hjs, hrun]

/-- C9 as written is false: `decorate` on an already-marked service executes
a bare `return;` — the caller receives `undefined`, not the same service. -/
theorem decorate_marked_counterexample :
    decorate ⟨true, 7, 1⟩ = none
    ∧ (⟨true, 7, 1⟩ : LanguageService).marker = true
    ∧ decorate ⟨true, 7, 1⟩ ≠ some ⟨true, 7, 1⟩ := by
  decide

/-- C9 (amended).  `decorate` on a service already carrying the sentinel
marker creates no second wrapper — but it returns `undefined` (nothing),
not the already-decorated service. -/
theorem decorate_already_marked (languageService : LanguageService)
    (h : languageService.marker = true) :
    decorate languageService = none := by
  simp [decorate, h]

/-- Witness for the amended C9 at a concrete marked service. -/
theorem decorate_already_marked_witness :
    (⟨true, 3, 1⟩ : LanguageService).marker = true
    ∧ decorate ⟨true, 3, 1⟩ = none :=
  ⟨rfl, decorate_already_marked ⟨true, 3, 1⟩ rfl⟩

/-- Snapshot and finding exercising C10: the finding's end position
resolves strictly before its start position. -/
def c10File : SourceFile :=
  { fileName := "n.ts", lines := [⟨"abcd", 1⟩, ⟨"efgh", 0⟩] }

def c10Msg : LintMessage :=
  { ruleId := some "r", message := "neg", severity := 2, line := some 2,
    column := some 1, endLine := some 1, endColumn := some 1, fix := .undef }

def c10Config : PluginConfig :=
  { suppressWhileTypeErrorsPresent := false, ignoreDefinitionFiles := false,
    jsEnable := false, alwaysShowRuleFailuresAsWarnings := none,
    configFile := none, exclude := [], packageManager := none }

/-- C10.  `getTextSpan` always satisfies `end - start == length` but never
validates ordering: for the concrete finding `c10Msg` on `c10File` the end
offset (0) lies strictly before the start offset (5), the span's length is
negative, and that span is used as-is by `makeDiagnostic` (published
`start`/`length`) and as the `[start,end]` registry key by
`recordCodeAction`. -/
theorem getTextSpan_negative_length :
    (∀ (file : SourceFile) (m : LintMessage),
      (getTextSpan file m).length
        = ((getTextSpan file m).endPos : Int) - ((getTextSpan file m).start : Int))
    ∧ (getTextSpan c10File c10Msg).endPos < (getTextSpan c10File c10Msg).start
    ∧ (getTextSpan c10File c10Msg).length < 0
    ∧ (makeDiagnostic c10Config c10Msg c10File).start
        = (getTextSpan c10File c10Msg).start
    ∧ (makeDiagnostic c10Config c10Msg c10File).length
        = (getTextSpan c10File c10Msg).length
    ∧ jsMapGet ((jsMapGet (recordCodeAction c10Msg c10File [])
          c10File.fileName).getD [])
        (problemKey (getTextSpan c10File c10Msg).start
          (getTextSpan c10File c10Msg).endPos)
        = some ⟨c10Msg, false⟩ := by
  refine ⟨fun file m => rfl, ?_, ?_, rfl, rfl, ?_⟩ <;> decide

/-- C7 as stated is refuted by a `.js` file: with JS linting disabled,
`doRun` skips linting and returns the empty result even though the file is
not excluded; the linter (which would report 3 errors) is never consulted. -/
def c7Config : RunConfiguration :=
  { allowInlineConfig := none, reportUnusedDisableDirectives := none,
    jsEnable := false, configFile := none, ignoreDefinitionFiles := false,
    exclude := [], nodePath := none, packageManager := none,
    workspaceFolderPath := none }

def c7Report : LintReport := { results := [], errorCount := 3, warningCount := 1 }

instance {e a : Type} [DecidableEq e] [DecidableEq a] :
    DecidableEq (Except e a) := fun x y =>
  match x, y with
  | .ok v, .ok w =>
    if h : v = w then .isTrue (by rw [h])
    else .isFalse (by intro hc; cases hc; exact h rfl)
  | .error v, .error w =>
    if h : v = w then .isTrue (by rw [h])
    else .isFalse (by intro hc; cases hc; exact h rfl)
  | .ok _, .error _ => .isFalse (by intro hc; cases hc)
  | .error _, .ok _ => .isFalse (by intro hc; cases hc)

/-- C7 counterexample: the empty lint result is returned for a file that is
not excluded, so "empty result exactly when excluded" fails. -/
theorem doRun_empty_without_exclusion_counterexample :
    fileIsExcluded (fun _ _ => false) (fun _ p => p) c7Config "a.js"
      (computedCwd c7Config none) = false
    ∧ doRun (fun _ _ => false) (fun _ p => p) "a.js" none
        (fun _ => (.ok c7Report, [])) c7Config [] ⟨"/", 0⟩
        = (.ok emptyResult, ⟨"/", 0⟩) := by
  decide

/-- C7 (amended).  A file is excluded exactly when it is a definition file
with definition-file exclusion configured, or some configured pattern
matches it — tried first against the workspace-relative path (when a
workspace root is given; if the relative path equals the absolute one the
second test is the same test) and then against the absolute path; whenever
the file is excluded, `doRun` skips linting and returns the empty lint
result with the process state untouched.  (Exclusion is a sufficient, not
necessary, condition for an empty result: disabled-JS files also skip.) -/
theorem exclusion_correct (mm : String → String → Bool)
    (rel : String → String → String) (settings : RunConfiguration)
    (filePath : String) (cwd : Option String) (c pattern : String)
    (contentsCwd : Option String)
    (linter : LintOptions → Except String LintReport × List String)
    (warnings : List String) (st : ProcState)
    (hexc : fileIsExcluded mm rel settings filePath
      (computedCwd settings contentsCwd) = true) :
    (fileIsExcluded mm rel settings filePath cwd = true
      ↔ ((settings.ignoreDefinitionFiles = true ∧ strEndsWith filePath ".d.ts" = true)
        ∨ ∃ p ∈ settings.exclude,
            testForExclusionPattern mm rel filePath p cwd = true))
    ∧ testForExclusionPattern mm rel filePath pattern (some c)
        = (mm (rel c filePath) pattern || mm filePath pattern)
    ∧ testForExclusionPattern mm rel filePath pattern none = mm filePath pattern
    ∧ doRun mm rel filePath contentsCwd linter settings warnings st
        = (.ok emptyResult, st) := by
  refine ⟨?_, ?_, rfl, ?_⟩
  · unfold fileIsExcluded
    by_cases hdts : (settings.ignoreDefinitionFiles
        && strEndsWith filePath ".d.ts") = true
    · rw [if_pos hdts]
      simp only [true_iff]
      have h' : settings.ignoreDefinitionFiles = true
          ∧ strEndsWith filePath ".d.ts" = true := by
        simpa using hdts
      exact Or.inl h'
    · rw [if_neg hdts]
      rw [List.any_eq_true]
      constructor
      · intro h
        right
        exact h
      · intro h
        rcases h with ⟨h1, h2⟩ | h
        · exact absurd (by rw [h1, h2]; rfl) hdts
        · exact h
  · simp only [testForExclusionPattern]
    by_cases h1 : mm (rel c filePath) pattern = true
    · rw [if_pos h1, h1, Bool.true_or]
    · rw [if_neg h1]
      have h1f : mm (rel c filePath) pattern = false := Bool.eq_false_iff.mpr h1
      by_cases h2 : rel c filePath = filePath
      · rw [if_pos h2, h1f, Bool.false_or]
        rw [h2] at h1f
        exact h1f.symm
      · rw [if_neg h2, h1f, Bool.false_or]
  · simp [doRun, hexc]

/-- Witness for the amended C7 at a concrete excluded file. -/
def c7ExclConfig : RunConfiguration :=
  { allowInlineConfig := none, reportUnusedDisableDirectives := none,
    jsEnable := false, configFile := none, ignoreDefinitionFiles := false,
    exclude := ["skip.ts"], nodePath := none, packageManager := none,
    workspaceFolderPath := none }

theorem exclusion_correct_witness :
    fileIsExcluded (fun s p => decide (s = p)) (fun _ s => s) c7ExclConfig
      "skip.ts" (computedCwd c7ExclConfig none) = true
    ∧ doRun (fun s p => decide (s = p)) (fun _ s => s) "skip.ts" none
        (fun _ => (.ok c7Report, [])) c7ExclConfig [] ⟨"/", 0⟩
        = (.ok emptyResult, ⟨"/", 0⟩) :=
  ⟨by decide,
    (exclusion_correct (fun s p => decide (s = p)) (fun _ s => s) c7ExclConfig
      "skip.ts" none "/w" "skip.ts" none (fun _ => (.ok c7Report, [])) []
      ⟨"/", 0⟩ (by decide)).2.2.2⟩

end EslintPlugin
